import Mathlib

/-!
Verification of the GRPO trainer core (`grpo_vllm/grpo_trainer.py`).

This file shallowly embeds the parts of the trainer that the claims are
about:

* the checkpoint scheduler (`get_last_time`, `update_model`), modelled as a
  pure step function on an explicit state (wall-clock times are exact
  rationals, the on-disk artifact store is a function from paths to optional
  modification times);
* the metrics accumulator (`self._metrics` together with the averaging done
  in `log`), modelled as an association list from metric names to the lists
  of recorded values;
* the loss computation (`compute_loss`), modelled over the reals with
  tensors as (nested) lists; forward values only, so `.detach()` is the
  identity on values;
* the per-token log-probability extraction (`get_per_token_logps`);
* the prompt-text preparation (chat-template rendering, character
  truncation, tokenization, left padding), with the external renderer and
  tokenizer as abstract function parameters.
-/

namespace GRPOVLLM

/-! ### Checkpoint scheduler

`update_model` (grpo_trainer.py lines 329-348) lazily records
`start_train_time` on its first invocation, performs the first save once
more than `int_time` seconds have elapsed since then (setting the
`start_save` flag), and afterwards saves whenever more than `int_time`
seconds have elapsed since the probed artifact's modification time
(`get_last_time`, lines 317-327). The artifact store is abstracted as a
function `mtimeOf : String → Option ℚ`; `none` means the path does not
exist. -/

/-- Scheduler state: `start_train_time` (unset before the first call) and
the `start_save` attribute (`false` models `not hasattr(self, 'start_save')`). -/
structure SchedState where
  startTrainTime : Option ℚ
  startSave : Bool
deriving DecidableEq

/-- The artifact path probed by `get_last_time`: `config.json` for
full-weight saves, `lora/adapter_config.json` when a PEFT config is set. -/
def checkPath (peftConfig : Bool) : String :=
  if peftConfig then "lora/adapter_config.json" else "config.json"

/-- Embedding of `get_last_time` (lines 317-327): the probed artifact's
mtime if it exists, otherwise `0.0`. -/
def get_last_time (peftConfig : Bool) (mtimeOf : String → Option ℚ) : ℚ :=
  match mtimeOf (checkPath peftConfig) with
  | some t => t
  | none => 0

/-- Embedding of one invocation of `update_model` (lines 329-348); the
lazily-set `start_train_time` is `st.startTrainTime.getD now`. Returns the
new state and whether a save was performed on this call. -/
def update_model (peftConfig : Bool) (intTime : ℚ) (st : SchedState) (now : ℚ)
    (mtimeOf : String → Option ℚ) : SchedState × Bool :=
  if intTime < now - st.startTrainTime.getD now ∧ st.startSave = false then
    (⟨some (st.startTrainTime.getD now), true⟩, true)
  else if intTime < now - get_last_time peftConfig mtimeOf ∧ st.startSave = true then
    (⟨some (st.startTrainTime.getD now), st.startSave⟩, true)
  else
    (⟨some (st.startTrainTime.getD now), st.startSave⟩, false)

/-- Runs the scheduler over a list of invocations, each given by the
wall-clock time of the call and the artifact store visible to that call.
Returns the final state and the per-call save decisions. -/
def runSched (peftConfig : Bool) (intTime : ℚ) :
    SchedState → List (ℚ × (String → Option ℚ)) → SchedState × List Bool
  | st, [] => (st, [])
  | st, c :: rest =>
    let r := update_model peftConfig intTime st c.1 c.2
    let f := runSched peftConfig intTime r.1 rest
    (f.1, r.2 :: f.2)

/-! ### Metrics accumulator

`self._metrics` is a `defaultdict(list)`; `log` (lines 350-357) computes
`sum(val) / len(val)` per key and then clears the whole dict. We model the
dict as an association list with distinct keys in insertion order. -/

/-- Metric accumulator: metric name to list of recorded values. -/
abbrev MetricsAcc := List (String × List ℚ)

/-- Appending a value under a name, as `self._metrics[name].append(value)`
behaves on a `defaultdict(list)`. -/
def record : MetricsAcc → String → ℚ → MetricsAcc
  | [], n, v => [(n, [v])]
  | (k, vs) :: rest, n, v =>
    if k = n then (k, vs ++ [v]) :: rest else (k, vs) :: record rest n v

/-- Embedding of the metric part of `log` (lines 350-357): return the
per-key averages `sum(val) / len(val)` and the cleared accumulator. -/
def flushMetrics (m : MetricsAcc) : List (String × ℚ) × MetricsAcc :=
  (m.map fun kv => (kv.1, kv.2.sum / (kv.2.length : ℚ)), [])

/-! ### Loss computation

`compute_loss` (lines 245-315), forward values only: tensors are nested
lists of reals, `.detach()` is the identity on forward values, and
broadcasting of the per-example advantage across the token axis is an
explicit `map` per row. -/

/-- Numeric value of one entry of the 0/1 `prefix_mask`. -/
def maskVal (b : Bool) : ℝ := if b then 1 else 0

/-- Forward value of `.detach()`: the identity (gradient tracking is out of
scope of a value-level embedding). -/
def detach (x : ℝ) : ℝ := x

/-- Per-token KL surrogate of line 296:
`exp(ref - policy) - (ref - policy) - 1`. -/
noncomputable def perTokenKL (ref pol : ℝ) : ℝ :=
  Real.exp (ref - pol) - (ref - pol) - 1

/-- The policy-ratio factor of line 302: `exp(p - p.detach())` at the
forward value. -/
noncomputable def policyRatio (p : ℝ) : ℝ := Real.exp (p - detach p)

/-- Elementwise combination of two matrices (tensors as lists of rows). -/
def mzipWith (f : ℝ → ℝ → ℝ) (A B : List (List ℝ)) : List (List ℝ) :=
  List.zipWith (List.zipWith f) A B

/-- `.mean()` of a vector: sum divided by length. -/
noncomputable def listMean (xs : List ℝ) : ℝ := xs.sum / (xs.length : ℝ)

/-- Embedding of the loss value computed on lines 296-305:
`per_token_kl`, then `per_token_loss = exp(p - p.detach()) * advantage`
broadcast per row, then `-(per_token_loss - beta * per_token_kl)`, then the
per-row masked sum divided by the per-row mask sum, then the batch mean. -/
noncomputable def computeLossCode (beta : ℝ) (polLogps refLogps : List (List ℝ))
    (advantages : List ℝ) (mask : List (List Bool)) : ℝ :=
  let perTokenKl := mzipWith perTokenKL refLogps polLogps
  let perTokenLoss1 := List.zipWith
    (fun (row : List ℝ) (a : ℝ) => row.map fun p => policyRatio p * detach a)
    polLogps advantages
  let perTokenLoss := mzipWith (fun x k => -(x - beta * k)) perTokenLoss1 perTokenKl
  let rowLoss := List.zipWith
    (fun (row : List ℝ) (m : List Bool) =>
      (List.zipWith (fun x b => x * maskVal b) row m).sum / (m.map maskVal).sum)
    perTokenLoss mask
  listMean rowLoss

/-- Errors of the spec's taxonomy that `compute_loss` could raise. -/
inductive LossError where
  | unsupportedReturnOutputs : LossError
  | dataContractViolation : LossError
deriving DecidableEq

/-- Embedding of `compute_loss` as called by the trainer: the only raise on
the loss path is the `return_outputs` rejection at lines 252-253; otherwise
the loss of lines 296-305 is returned. -/
noncomputable def compute_loss (returnOutputs : Bool) (beta : ℝ)
    (polLogps refLogps : List (List ℝ)) (advantages : List ℝ)
    (mask : List (List Bool)) : Except LossError ℝ :=
  if returnOutputs then Except.error LossError.unsupportedReturnOutputs
  else Except.ok (computeLossCode beta polLogps refLogps advantages mask)

/-- Reference per-token loss, following the claim wording:
`-(ratio * advantage - beta * kl_surrogate)`. -/
noncomputable def specTokenLoss (beta a p r : ℝ) : ℝ :=
  -(policyRatio p * a - beta * perTokenKL r p)

/-- Reference row reduction, following the claim wording: sum the per-token
losses at the masked positions and divide by the number of true mask
entries of the row. -/
noncomputable def specMaskedMean (xs : List ℝ) (m : List Bool) : ℝ :=
  (((xs.zip m).filter fun q => q.2).map Prod.fst).sum / ((m.count true : ℕ) : ℝ)

/-- Pointwise zip of four lists, truncating at the shortest. -/
def zipWith4 {α β γ δ ε : Type _} (f : α → β → γ → δ → ε) :
    List α → List β → List γ → List δ → List ε
  | a :: as, b :: bs, c :: cs, d :: ds => f a b c d :: zipWith4 f as bs cs ds
  | _, _, _, _ => []

/-- Reference loss, following the claim wording: per-row masked mean of the
per-token losses (advantage broadcast across the token axis), then the
unweighted mean across the batch. -/
noncomputable def computeLossSpec (beta : ℝ) (polLogps refLogps : List (List ℝ))
    (advantages : List ℝ) (mask : List (List Bool)) : ℝ :=
  listMean (zipWith4
    (fun (p r : List ℝ) (a : ℝ) (m : List Bool) =>
      specMaskedMean (List.zipWith (fun pp rr => specTokenLoss beta a pp rr) p r) m)
    polLogps refLogps advantages mask)

/-! ### Per-token log-probability extraction

`get_per_token_logps` (lines 269-279): drop the last score vector of each
row and the first token id of each row, then per row apply log-softmax over
the vocabulary axis and gather the log-probability of the actual next
token. -/

/-- Log-softmax over a vocabulary score vector:
`x_i - log (sum_j exp x_j)`. -/
noncomputable def logSoftmax (xs : List ℝ) : List ℝ :=
  xs.map fun x => x - Real.log ((xs.map Real.exp).sum)

/-- Embedding of `get_per_token_logps` (lines 269-279): the row-by-row
streaming computation (loop over the batch axis, per-row log-softmax then
index-gather of the next token id). -/
noncomputable def get_per_token_logps (scores : List (List (List ℝ)))
    (ids : List (List ℕ)) : List (List ℝ) :=
  let logits := scores.map List.dropLast
  let ids2 := ids.map (List.drop 1)
  List.zipWith
    (fun (logitsRow : List (List ℝ)) (idsRow : List ℕ) =>
      List.zipWith (fun (lp : List ℝ) (t : ℕ) => lp.getD t 0)
        (logitsRow.map logSoftmax) idsRow)
    logits ids2

/-- The direct whole-tensor definition from the claim: entry (i, j) is the
log-softmax of the scores of row i at position j, evaluated at the actual
next token id at position j+1 of row i. -/
noncomputable def directPerTokenLogps (scores : List (List (List ℝ)))
    (ids : List (List ℕ)) (L : ℕ) : List (List ℝ) :=
  (List.range scores.length).map fun i =>
    (List.range (L - 1)).map fun j =>
      (logSoftmax ((scores.getD i []).getD j [])).getD
        ((ids.getD i []).getD (j + 1) 0) 0

/-! ### Prompt preparation (line 255)

Each example's `completion` is rendered through the external chat template
and the resulting text string is truncated to `max_seq_length` characters
(`[:self.args.max_seq_length]` is Python string slicing); the truncated
texts are then tokenized with left padding. Renderer and tokenizer are
abstract collaborators. -/

/-- Python text as a character list; `s[:n]` is `List.take n`. -/
abbrev PyText := List Char

/-- Embedding of line 255: render each example and truncate the rendered
text to `max_seq_length` characters. -/
def prompts_text {α : Type} (render : α → PyText) (maxSeqLength : ℕ)
    (inputs : List α) : List PyText :=
  inputs.map fun ex => (render ex).take maxSeqLength

/-- Tokenization of the truncated texts (lines 257-259), tokenizer
abstract. -/
def tokenRows {α : Type} (tokenize : PyText → List ℕ) (render : α → PyText)
    (maxSeqLength : ℕ) (inputs : List α) : List (List ℕ) :=
  (prompts_text render maxSeqLength inputs).map tokenize

/-- Left padding of one row to length `L` (`padding_side="left"`). -/
def leftPad (padId L : ℕ) (row : List ℕ) : List ℕ :=
  List.replicate (L - row.length) padId ++ row

/-- The padded token matrix produced by the tokenizer call at lines
257-259: rows padded on the left to the longest row's token count. -/
def tokenMatrix {α : Type} (tokenize : PyText → List ℕ) (render : α → PyText)
    (maxSeqLength padId : ℕ) (inputs : List α) : List (List ℕ) :=
  let rows := tokenRows tokenize render maxSeqLength inputs
  let L := (rows.map List.length).foldr Nat.max 0
  rows.map (leftPad padId L)

/-! ### Scheduler claims -/

/-- C6: with `interval = 10`, a call at t=0 with no artifact saves nothing
and leaves the flag unset; a call at t=11 saves and sets the flag (its only
unset-to-set transition in the run); a call at t=15 with artifact mtime 11
does not save; a call at t=22 saves, the flag staying set throughout. -/
theorem C6_scheduler_trace :
    update_model false 10 ⟨none, false⟩ 0 (fun _ => none) = (⟨some 0, false⟩, false) ∧
    update_model false 10 ⟨some 0, false⟩ 11 (fun _ => none) = (⟨some 0, true⟩, true) ∧
    update_model false 10 ⟨some 0, true⟩ 15
      (fun p => if p = "config.json" then some 11 else none) = (⟨some 0, true⟩, false) ∧
    update_model false 10 ⟨some 0, true⟩ 22
      (fun p => if p = "config.json" then some 11 else none) = (⟨some 0, true⟩, true) := by
  refine ⟨?_, ?_, ?_, ?_⟩ <;> norm_num [update_model, get_last_time, checkPath]

/-- C7: in the Armed state (`start_save` set), when the probed artifact
path is absent the last-save time is taken to be `0.0`, and a save is
performed whenever the interval is smaller than the current wall-clock
time. -/
theorem C7_armed_missing_artifact_saves (peftConfig : Bool) (intTime now : ℚ)
    (st : SchedState) (mtimeOf : String → Option ℚ)
    (habs : mtimeOf (checkPath peftConfig) = none)
    (harmed : st.startSave = true)
    (hlt : intTime < now) :
    get_last_time peftConfig mtimeOf = 0 ∧
    (update_model peftConfig intTime st now mtimeOf).2 = true := by
  have hlast : get_last_time peftConfig mtimeOf = 0 := by
    unfold get_last_time
    rw [habs]
  refine ⟨hlast, ?_⟩
  unfold update_model
  rw [harmed, hlast]
  have h1 : ¬ (intTime < now - st.startTrainTime.getD now ∧ true = false) := by
    rintro ⟨-, h⟩
    cases h
  have h2 : intTime < now - 0 ∧ true = true := ⟨by simpa using hlt, rfl⟩
  rw [if_neg h1, if_pos h2]

/-- C7 witness: a concrete Armed-state invocation with the artifact absent. -/
theorem C7_armed_missing_artifact_saves_witness :
    get_last_time false (fun _ => none) = 0 ∧
    (update_model false 10 ⟨some 0, true⟩ 11 (fun _ => none)).2 = true :=
  C7_armed_missing_artifact_saves false 10 11 ⟨some 0, true⟩ (fun _ => none)
    rfl rfl (by norm_num)

/-- C9: from a fresh state (no flag, no recorded start time), no save
happens on any invocation whose wall-clock time is within the configured
interval of the first invocation's time, whatever each call's artifact
store looks like, and the flag stays unset; the first call fixes the
in-memory start time. -/
theorem C9_fresh_within_interval_no_save (peftConfig : Bool) (intTime t0 : ℚ)
    (m0 : String → Option ℚ) (rest : List (ℚ × (String → Option ℚ)))
    (hpos : 0 ≤ intTime)
    (hwithin : ∀ c ∈ rest, c.1 - t0 ≤ intTime) :
    (runSched peftConfig intTime ⟨none, false⟩ ((t0, m0) :: rest)).2
      = List.replicate (rest.length + 1) false ∧
    (runSched peftConfig intTime ⟨none, false⟩ ((t0, m0) :: rest)).1
      = ⟨some t0, false⟩ := by
  have hstep : ∀ (now : ℚ) (mt : String → Option ℚ), now - t0 ≤ intTime →
      update_model peftConfig intTime ⟨some t0, false⟩ now mt
        = (⟨some t0, false⟩, false) := by
    intro now mt hle
    unfold update_model
    have h1 : ¬ (intTime < now - (SchedState.mk (some t0) false).startTrainTime.getD now
        ∧ (SchedState.mk (some t0) false).startSave = false) := by
      rintro ⟨hlt, -⟩
      simp only [Option.getD_some] at hlt
      exact absurd hle (not_le.mpr hlt)
    rw [if_neg h1]
    have h2 : ¬ (intTime < now - get_last_time peftConfig mt
        ∧ (SchedState.mk (some t0) false).startSave = true) := by
      rintro ⟨-, h⟩
      cases h
    rw [if_neg h2]
    rfl
  have hfirst : update_model peftConfig intTime ⟨none, false⟩ t0 m0
      = (⟨some t0, false⟩, false) := by
    unfold update_model
    have h1 : ¬ (intTime < t0 - (SchedState.mk none false).startTrainTime.getD t0
        ∧ (SchedState.mk none false).startSave = false) := by
      rintro ⟨hlt, -⟩
      simp only [Option.getD_none, sub_self] at hlt
      exact absurd hpos (not_le.mpr hlt)
    rw [if_neg h1]
    have h2 : ¬ (intTime < t0 - get_last_time peftConfig m0
        ∧ (SchedState.mk none false).startSave = true) := by
      rintro ⟨-, h⟩
      cases h
    rw [if_neg h2]
    rfl
  have hrest : ∀ (l : List (ℚ × (String → Option ℚ))),
      (∀ c ∈ l, c.1 - t0 ≤ intTime) →
      runSched peftConfig intTime ⟨some t0, false⟩ l
        = (⟨some t0, false⟩, List.replicate l.length false) := by
    intro l
    induction l with
    | nil => intro _; rfl
    | cons c cs ih =>
        intro hall
        have hc : c.1 - t0 ≤ intTime := hall c (List.mem_cons_self c cs)
        have hcs : ∀ x ∈ cs, x.1 - t0 ≤ intTime := fun x hx =>
          hall x (List.mem_cons_of_mem c hx)
        simp only [runSched, hstep c.1 c.2 hc, ih hcs, List.length_cons,
          List.replicate_succ]
  have hone : runSched peftConfig intTime ⟨none, false⟩ ((t0, m0) :: rest)
      = (⟨some t0, false⟩, false :: List.replicate rest.length false) := by
    simp only [runSched, hfirst, hrest rest hwithin]
  rw [hone]
  exact ⟨by simp [List.replicate_succ], rfl⟩

/-- C9 witness: a concrete fresh three-call run inside the interval, one
call seeing no artifact and another an arbitrarily old artifact. -/
theorem C9_fresh_within_interval_no_save_witness :
    (runSched false 10 ⟨none, false⟩
        [(0, fun _ => none), (5, fun _ => some (-100)), (9, fun _ => none)]).2
      = List.replicate 3 false ∧
    (runSched false 10 ⟨none, false⟩
        [(0, fun _ => none), (5, fun _ => some (-100)), (9, fun _ => none)]).1
      = ⟨some 0, false⟩ :=
  C9_fresh_within_interval_no_save false 10 0 (fun _ => none)
    [(5, fun _ => some (-100)), (9, fun _ => none)] (by norm_num)
    (by intro c hc; simp only [List.mem_cons, List.not_mem_nil, or_false] at hc
        rcases hc with h | h <;> (subst h; norm_num))

/-! ### Metrics claims -/

/-- C8: a flush returns, for every recorded name, the arithmetic mean of
its recorded values (`sum / length`), clears every list, and a second flush
right after returns an empty mapping. -/
theorem C8_flush_averages_then_clears (m : MetricsAcc) (k : String) (vs : List ℚ)
    (hmem : (k, vs) ∈ m) :
    (k, vs.sum / (vs.length : ℚ)) ∈ (flushMetrics m).1 ∧
    (flushMetrics m).2 = [] ∧
    (flushMetrics (flushMetrics m).2).1 = [] := by
  refine ⟨?_, rfl, rfl⟩
  unfold flushMetrics
  exact List.mem_map.mpr ⟨(k, vs), hmem, rfl⟩

/-- C8 witness: a concrete accumulator with two metrics. -/
theorem C8_flush_averages_then_clears_witness :
    ("kl", List.sum [(1 : ℚ), 3] / ((List.length [(1 : ℚ), 3] : ℕ) : ℚ)) ∈
      (flushMetrics [("kl", [1, 3]), ("completion_length", [7])]).1 ∧
    (flushMetrics [("kl", [(1 : ℚ), 3]), ("completion_length", [7])]).2 = [] ∧
    (flushMetrics (flushMetrics [("kl", [(1 : ℚ), 3]), ("completion_length", [7])]).2).1
      = [] :=
  C8_flush_averages_then_clears
    [("kl", [(1 : ℚ), 3]), ("completion_length", [7])] "kl" [1, 3]
    (List.mem_cons_self ("kl", [(1 : ℚ), 3]) [("completion_length", [7])])

/-! ### Loss claims -/

/-- The masked row sum computed by multiplying with the 0/1 mask equals the
sum over the mask-selected positions. -/
theorem maskedSum_eq_filterSum (xs : List ℝ) (m : List Bool) :
    (List.zipWith (fun x b => x * maskVal b) xs m).sum
      = (((xs.zip m).filter fun q => q.2).map Prod.fst).sum := by
  induction xs generalizing m with
  | nil => cases m <;> simp
  | cons x xs ih =>
      cases m with
      | nil => simp
      | cons b bs =>
          cases b
          · simpa [maskVal] using ih bs
          · simpa [maskVal] using ih bs

/-- The sum of the 0/1 mask values equals the count of true entries. -/
theorem maskSum_eq_count (m : List Bool) :
    (m.map maskVal).sum = ((m.count true : ℕ) : ℝ) := by
  induction m with
  | nil => simp
  | cons b bs ih =>
      cases b
      · simpa [maskVal] using ih
      · simp only [List.map_cons, List.sum_cons, ih, List.count_cons]
        simp [maskVal]
        ring

/-- One row of the code's per-token losses equals the reference per-token
losses. -/
theorem tokenLoss_row_eq (beta a : ℝ) (p r : List ℝ) :
    List.zipWith (fun x k => -(x - beta * k))
        (p.map fun pp => policyRatio pp * detach a)
        (List.zipWith perTokenKL r p)
      = List.zipWith (fun pp rr => specTokenLoss beta a pp rr) p r := by
  induction p generalizing r with
  | nil => simp
  | cons pp ps ih =>
      cases r with
      | nil => simp
      | cons rr rs =>
          simp only [List.map_cons, List.zipWith_cons_cons]
          rw [ih]
          simp [specTokenLoss, detach]

/-- One row of the code's masked mean equals the reference masked mean. -/
theorem rowLoss_eq_spec (beta a : ℝ) (p r : List ℝ) (m : List Bool) :
    (List.zipWith (fun x b => x * maskVal b)
        (List.zipWith (fun x k => -(x - beta * k))
          (p.map fun pp => policyRatio pp * detach a)
          (List.zipWith perTokenKL r p)) m).sum
      / (m.map maskVal).sum
      = specMaskedMean
          (List.zipWith (fun pp rr => specTokenLoss beta a pp rr) p r) m := by
  rw [tokenLoss_row_eq, maskedSum_eq_filterSum, maskSum_eq_count]
  simp only [specMaskedMean]

/-- The code's per-row loss vector equals the reference per-row loss
vector. -/
theorem lossRows_eq (beta : ℝ) (pol ref : List (List ℝ)) (adv : List ℝ)
    (mask : List (List Bool)) :
    List.zipWith
      (fun (row : List ℝ) (m : List Bool) =>
        (List.zipWith (fun x b => x * maskVal b) row m).sum / (m.map maskVal).sum)
      (mzipWith (fun x k => -(x - beta * k))
        (List.zipWith
          (fun (row : List ℝ) (a : ℝ) => row.map fun p => policyRatio p * detach a)
          pol adv)
        (mzipWith perTokenKL ref pol))
      mask
    = zipWith4
        (fun (p r : List ℝ) (a : ℝ) (m : List Bool) =>
          specMaskedMean
            (List.zipWith (fun pp rr => specTokenLoss beta a pp rr) p r) m)
        pol ref adv mask := by
  induction pol generalizing ref adv mask with
  | nil => simp [mzipWith, zipWith4]
  | cons p ps ih =>
      cases ref with
      | nil => simp [mzipWith, zipWith4]
      | cons r rs =>
          cases adv with
          | nil => simp [mzipWith, zipWith4]
          | cons a as =>
              cases mask with
              | nil => simp [mzipWith, zipWith4]
              | cons m ms =>
                  have iht := ih rs as ms
                  simp only [mzipWith] at iht
                  simp only [mzipWith, List.zipWith_cons_cons, zipWith4]
                  rw [rowLoss_eq_spec, iht]

/-- C1: the scalar returned by `compute_loss` equals the reference loss:
per-token loss `-(ratio * advantage - beta * kl_surrogate)` with the
advantage broadcast across the token axis, per-row masked sum divided by
the row's count of true mask entries, then the unweighted mean across the
batch. -/
theorem C1_compute_loss_matches_reference (beta : ℝ) (polLogps refLogps : List (List ℝ))
    (advantages : List ℝ) (mask : List (List Bool)) :
    compute_loss false beta polLogps refLogps advantages mask
      = Except.ok (computeLossSpec beta polLogps refLogps advantages mask) := by
  simp only [compute_loss, if_neg Bool.false_ne_true, computeLossCode, computeLossSpec]
  rw [lossRows_eq]

/-- C2: the per-token KL surrogate is nonnegative, vanishes exactly when
the policy and reference log-probabilities coincide, and hence vanishes at
all masked positions of a row iff the two log-probability rows agree at
every masked position. -/
theorem C2_kl_surrogate_nonneg_iff_eq (ref pol : ℝ) (refs pols : List ℝ)
    (mask : List Bool) :
    0 ≤ perTokenKL ref pol ∧
    (perTokenKL ref pol = 0 ↔ pol = ref) ∧
    ((∀ j, j < mask.length → mask.getD j false = true →
        perTokenKL (refs.getD j 0) (pols.getD j 0) = 0) ↔
      (∀ j, j < mask.length → mask.getD j false = true →
        pols.getD j 0 = refs.getD j 0)) := by
  have hnn : ∀ a b : ℝ, 0 ≤ perTokenKL a b := by
    intro a b
    have h := Real.add_one_le_exp (a - b)
    simp only [perTokenKL]
    linarith
  have hiff : ∀ a b : ℝ, perTokenKL a b = 0 ↔ b = a := by
    intro a b
    constructor
    · intro h
      by_contra hne
      have hsub : a - b ≠ 0 := sub_ne_zero.mpr fun hh => hne hh.symm
      have hlt := Real.add_one_lt_exp hsub
      simp only [perTokenKL] at h
      linarith
    · intro h
      subst h
      simp [perTokenKL]
  refine ⟨hnn ref pol, hiff ref pol, ?_⟩
  constructor
  · intro h j hj hm
    exact (hiff _ _).mp (h j hj hm)
  · intro h j hj hm
    exact (hiff _ _).mpr (h j hj hm)

/-- C3: the policy-ratio term `exp(p - p.detach())` is exactly 1 at the
forward value, at every token position of every batch. -/
theorem C3_policy_ratio_is_one (p : ℝ) (polLogps : List (List ℝ)) :
    policyRatio p = 1 ∧
    polLogps.map (List.map policyRatio)
      = polLogps.map (List.map fun _ => (1 : ℝ)) := by
  have h1 : ∀ x : ℝ, policyRatio x = 1 := by
    intro x
    simp [policyRatio, detach, sub_self, Real.exp_zero]
  refine ⟨h1 p, ?_⟩
  apply List.map_congr_left
  intro row _
  apply List.map_congr_left
  intro x _
  exact h1 x

/-- C4: on a batch whose single row has an all-false mask, `compute_loss`
raises nothing: it returns a value (the masked-mean division is executed
with denominator 0, a NaN in floating point), rather than a
`DataContractViolation` error. -/
theorem C4_all_false_mask_returns_value :
    compute_loss false 1 [[0]] [[0]] [1] [[false]] = Except.ok 0 ∧
    ([false].map maskVal).sum = 0 := by
  constructor
  · simp [compute_loss, computeLossCode, mzipWith, maskVal, listMean]
  · simp [maskVal]

/-! ### Log-probability extraction claims -/

/-- A zip of two lists of length `n` is the map over `List.range n` of the
pointwise combination (with irrelevant defaults). -/
theorem zipWith_eq_range_map {α β γ : Type _} (f : α → β → γ) (da : α) (db : β) :
    ∀ (n : ℕ) (as : List α) (bs : List β), as.length = n → bs.length = n →
      List.zipWith f as bs
        = (List.range n).map fun j => f (as.getD j da) (bs.getD j db) := by
  intro n
  induction n with
  | zero =>
      intro as bs ha hb
      rw [List.length_eq_zero] at ha hb
      subst ha
      subst hb
      simp
  | succ n ih =>
      intro as bs ha hb
      cases as with
      | nil => simp at ha
      | cons a as2 =>
          cases bs with
          | nil => simp at hb
          | cons b bs2 =>
              simp only [List.length_cons, add_left_inj] at ha hb
              rw [List.zipWith_cons_cons, ih as2 bs2 ha hb, List.range_succ_eq_map]
              simp only [List.map_cons, List.map_map]
              congr 1

/-- Reading `drop 1` at index `j` is reading the original list at `j + 1`. -/
theorem getD_drop_one {α : Type _} (d : α) (t : List α) (j : ℕ) :
    (t.drop 1).getD j d = t.getD (j + 1) d := by
  cases t <;> simp [List.getD_cons_succ]

/-- One row of the streaming extraction equals the direct per-entry
formula. -/
theorem row_logps_eq (s : List (List ℝ)) (t : List ℕ) (L : ℕ)
    (hs : s.length = L) (ht : t.length = L) :
    List.zipWith (fun (lp : List ℝ) (tok : ℕ) => lp.getD tok 0)
        (s.dropLast.map logSoftmax) (t.drop 1)
      = (List.range (L - 1)).map fun j =>
          (logSoftmax (s.getD j [])).getD (t.getD (j + 1) 0) 0 := by
  have h1 : (s.dropLast.map logSoftmax).length = L - 1 := by
    simp [List.length_dropLast, hs]
  have h2 : (t.drop 1).length = L - 1 := by
    simp [ht]
  rw [zipWith_eq_range_map (fun (lp : List ℝ) (tok : ℕ) => lp.getD tok 0) [] 0
      (L - 1) _ _ h1 h2]
  apply List.map_congr_left
  intro j hj
  rw [List.mem_range] at hj
  have hjd : j < s.dropLast.length := by
    rw [List.length_dropLast, hs]
    exact hj
  have hjm : j < (s.dropLast.map logSoftmax).length := by
    simpa using hjd
  have hjs : j < s.length := by
    rw [List.length_dropLast, hs] at hjd
    omega
  rw [getD_drop_one]
  congr 1
  rw [List.getD_eq_getElem _ _ hjm, List.getElem_map, List.getElem_dropLast,
    List.getD_eq_getElem s ([] : List ℝ) hjs]

/-- `get_per_token_logps` peels one batch row at a time. -/
theorem get_logps_cons (s : List (List ℝ)) (ss : List (List (List ℝ)))
    (t : List ℕ) (ts : List (List ℕ)) :
    get_per_token_logps (s :: ss) (t :: ts)
      = List.zipWith (fun (lp : List ℝ) (tok : ℕ) => lp.getD tok 0)
          (s.dropLast.map logSoftmax) (t.drop 1)
        :: get_per_token_logps ss ts := rfl

/-- `directPerTokenLogps` peels one batch row at a time. -/
theorem direct_logps_cons (s : List (List ℝ)) (ss : List (List (List ℝ)))
    (t : List ℕ) (ts : List (List ℕ)) (L : ℕ) :
    directPerTokenLogps (s :: ss) (t :: ts) L
      = ((List.range (L - 1)).map fun j =>
          (logSoftmax (s.getD j [])).getD (t.getD (j + 1) 0) 0)
        :: directPerTokenLogps ss ts L := by
  simp only [directPerTokenLogps, List.length_cons, List.range_succ_eq_map,
    List.map_cons, List.map_map]
  congr 1

/-- The streaming extraction equals the direct whole-tensor definition on
rectangular inputs. -/
theorem get_logps_eq_direct (L : ℕ) :
    ∀ (scores : List (List (List ℝ))) (ids : List (List ℕ)),
      scores.length = ids.length →
      (∀ row ∈ scores, row.length = L) →
      (∀ row ∈ ids, row.length = L) →
      get_per_token_logps scores ids = directPerTokenLogps scores ids L := by
  intro scores
  induction scores with
  | nil =>
      intro ids hB hs hi
      have : ids = [] := by
        cases ids with
        | nil => rfl
        | cons t ts => simp at hB
      subst this
      rfl
  | cons s ss ih =>
      intro ids hB hs hi
      cases ids with
      | nil => simp at hB
      | cons t ts =>
          have hB2 : ss.length = ts.length := by simpa using hB
          rw [get_logps_cons, direct_logps_cons,
            row_logps_eq s t L (hs s (List.mem_cons_self s ss))
              (hi t (List.mem_cons_self t ts)),
            ih ts hB2 (fun row hr => hs row (List.mem_cons_of_mem s hr))
              (fun row hr => hi row (List.mem_cons_of_mem t hr))]

/-- C5: on a rectangular batch of score tensors and token ids, the
row-by-row streaming extraction of `get_per_token_logps` equals the direct
whole-tensor definition, and it has shape (batch, sequence length - 1). -/
theorem C5_streaming_equals_direct (scores : List (List (List ℝ)))
    (ids : List (List ℕ)) (L : ℕ)
    (hB : scores.length = ids.length)
    (hs : ∀ row ∈ scores, row.length = L)
    (hi : ∀ row ∈ ids, row.length = L) :
    get_per_token_logps scores ids = directPerTokenLogps scores ids L ∧
    (get_per_token_logps scores ids).length = scores.length ∧
    ∀ row ∈ get_per_token_logps scores ids, row.length = L - 1 := by
  have heq := get_logps_eq_direct L scores ids hB hs hi
  refine ⟨heq, ?_, ?_⟩
  · rw [heq]
    simp [directPerTokenLogps]
  · rw [heq]
    intro row hr
    simp only [directPerTokenLogps] at hr
    rcases List.mem_map.mp hr with ⟨i, -, rfl⟩
    simp

/-- C5 witness: a concrete 1-by-2-by-1 score tensor. -/
theorem C5_streaming_equals_direct_witness :
    get_per_token_logps [[[0], [0]]] [[0, 0]]
      = directPerTokenLogps [[[0], [0]]] [[0, 0]] 2 ∧
    (get_per_token_logps [[[0], [0]]] [[0, 0]]).length
      = ([[[(0 : ℝ)], [0]]] : List (List (List ℝ))).length ∧
    ∀ row ∈ get_per_token_logps [[[0], [0]]] [[0, 0]], row.length = 2 - 1 :=
  C5_streaming_equals_direct [[[0], [0]]] [[0, 0]] 2 rfl
    (by
      intro row hr
      simp only [List.mem_singleton] at hr
      subst hr
      rfl)
    (by
      intro row hr
      simp only [List.mem_singleton] at hr
      subst hr
      rfl)

/-! ### Prompt preparation claim -/

/-- C10: the configured maximum sequence length truncates the rendered text
to that many characters before tokenization; it does not bound the token
count of a row of the padded token matrix, which can exceed or fall short
of the configured maximum. -/
theorem C10_char_truncation_not_token_bound :
    (∀ (α : Type) (render : α → PyText) (tokenize : PyText → List ℕ)
        (n : ℕ) (inputs : List α),
      tokenRows tokenize render n inputs
        = inputs.map fun ex => tokenize ((render ex).take n)) ∧
    (∀ (α : Type) (render : α → PyText) (n : ℕ) (inputs : List α),
      ∀ s ∈ prompts_text render n inputs, s.length ≤ n) ∧
    (∃ tokenize : PyText → List ℕ, ∃ render : Unit → PyText, ∃ n padId : ℕ,
      ∃ row ∈ tokenMatrix tokenize render n padId [()], n < row.length) ∧
    (∃ tokenize : PyText → List ℕ, ∃ render : Unit → PyText, ∃ n padId : ℕ,
      ∃ row ∈ tokenMatrix tokenize render n padId [()], row.length < n) := by
  refine ⟨?_, ?_, ?_, ?_⟩
  · intro α render tokenize n inputs
    simp [tokenRows, prompts_text, List.map_map, Function.comp]
  · intro α render n inputs s hs
    simp only [prompts_text, List.mem_map] at hs
    rcases hs with ⟨ex, -, rfl⟩
    rw [List.length_take]
    exact min_le_left _ _
  · exact ⟨fun s => List.replicate (2 * s.length) 0, fun _ => ['a'], 1, 0,
      [0, 0], by decide, by decide⟩
  · exact ⟨fun _ => [], fun _ => ['a'], 1, 0, [], by decide, by decide⟩

end GRPOVLLM
